import Mathlib

/-!
Shallow embedding of the price-reconciliation engine of `app.py`
(Cotizador — Farmacia Pérez): ingestion and normalization of supplier
rows, catalog merge with canonical names, tie ranking at a configurable
precision, tie-resolution state, and the order builder.

Modelling conventions: a decimal cell value is an exact scaled integer
`Dec` (numerator over `10 ^ scale`; the source holds float64, whose
role here is exact decimal arithmetic), pandas `NaN` price cells are
`Option.none`, Streamlit session dictionaries are association lists,
and string ordering is code-point lexicographic comparison, as in
Python and pandas.
-/

namespace Farmacia

/-- An exact decimal number: `num / 10 ^ scale`. -/
structure Dec where
  num : ℤ
  scale : ℕ
deriving DecidableEq, Repr

/-- Value of a `Dec` as a rational. -/
def Dec.toQ (d : Dec) : ℚ := (d.num : ℚ) / (10 : ℚ) ^ d.scale

/-- Code-point lexicographic strict comparison of char lists: the string
order used by Python (and hence by pandas `sort_values` on string
columns and sorted `mode()` output). -/
def ltChars : List Char → List Char → Bool
  | [], [] => false
  | [], _ :: _ => true
  | _ :: _, [] => false
  | a :: as, b :: bs => if a < b then true else if b < a then false else ltChars as bs

/-- Non-strict string comparison derived from `ltChars`. -/
def strLeB (a b : String) : Bool := ! ltChars b.toList a.toList

/-- Relation form of `strLeB`, for sorting. -/
def strLe (a b : String) : Prop := strLeB a b = true

instance : DecidableRel strLe := fun _ _ => inferInstanceAs (Decidable (_ = true))

/-- Python `str.strip` on a cell (pandas `.str.strip()`): drop leading
and trailing whitespace. -/
def trimS (s : String) : String :=
  (((s.toList.dropWhile Char.isWhitespace).reverse.dropWhile Char.isWhitespace).reverse).asString

/-- A raw input row of one supplier Excel file, after pandas stringifies
every cell (`astype(str)`): columns `SKU`, `Nombre`, `Precio Unitario`. -/
structure RawRow where
  sku : String
  nombre : String
  precio : String
deriving DecidableEq, Repr

/-- A normalized supplier record produced by ingestion (app.py lines
110-148): trimmed sku and name, parsed optional price, supplier name. -/
structure Record where
  proveedor : String
  sku : String
  nombre : String
  precio : Option Dec
deriving DecidableEq, Repr

/-- A merged-catalog row: a record plus its canonical name
(`Nombre_canonico`, app.py lines 164-178). -/
structure MergedRow where
  proveedor : String
  sku : String
  nombre : String
  precio : Option Dec
  nombreCanonico : String
deriving DecidableEq, Repr

/-- Price cleaning, step 1 (app.py line 143): keep only digits, `,`,
`.` and `-`; step 2 (line 144): drop every `,` (thousands separator). -/
def cleanPrice (s : String) : String :=
  ((s.toList.filter (fun c => c.isDigit || c = ',' || c = '.' || c = '-')).filter
    (fun c => c ≠ ',')).asString

/-- Split a char list on `.` separators. -/
def splitDot : List Char → List (List Char)
  | [] => [[]]
  | c :: cs =>
    if c = '.' then [] :: splitDot cs
    else
      match splitDot cs with
      | [] => [[c]]
      | g :: gs => (c :: g) :: gs

/-- Digit-string to number: `none` unless nonempty and all digits. -/
def digitsToNat? (l : List Char) : Option ℕ :=
  if l ≠ [] && l.all Char.isDigit then
    some (l.foldl (fun a c => 10 * a + (c.toNat - 48)) 0)
  else none

/-- Decimal parsing as `pd.to_numeric(..., errors='coerce')` behaves on
a cleaned cell (app.py line 146): optional leading `-`, an integer part
and an optional fractional part split on a single `.`, at least one
digit in total; anything else coerces to `none` (pandas `NaN`). The
result keeps the written scale (`"12.50"` is `1250 / 10 ^ 2`). -/
def parseDecimal (s : String) : Option Dec :=
  let cs := s.toList
  let neg := cs.head? = some '-'
  let body := if neg then cs.tail else cs
  let sgn : ℤ := if neg then -1 else 1
  match splitDot body with
  | [ip] => (digitsToNat? ip).map (fun n => ⟨sgn * n, 0⟩)
  | [ip, fp] =>
    if ip = [] && fp = [] then none
    else
      match (if ip = [] then some 0 else digitsToNat? ip),
            (if fp = [] then some 0 else digitsToNat? fp) with
      | some i, some f => some ⟨sgn * (i * 10 ^ fp.length + f), fp.length⟩
      | _, _ => none
  | _ => none

/-- The strict SKU validation regex `^\d+$` (app.py line 131) on a
trimmed, stringified cell: nonempty and all digits. -/
def skuValidB (s : String) : Bool := s.toList ≠ [] && s.toList.all Char.isDigit

/-- Ingestion error taxonomy for the modelled columns: an
`InvalidIdentifier` batch failure carrying the offending file and its
offending (trimmed) SKU cells (app.py lines 131-135). -/
inductive IngestError where
  | invalidIdentifier (file : String) (offending : List String)
deriving DecidableEq, Repr

/-- Normalization of one supplier file (app.py lines 110-148): trim
SKUs, reject the whole file when any trimmed SKU is not all-digits
(`st.stop()`), otherwise trim names, clean-and-parse prices, and tag
every row with the supplier name. -/
def normalizeFile (prov : String) (rows : List RawRow) :
    Except IngestError (List Record) :=
  let invalid := rows.filter (fun r => ! skuValidB (trimS r.sku))
  if invalid ≠ [] then
    Except.error (.invalidIdentifier prov (invalid.map (fun r => trimS r.sku)))
  else
    Except.ok (rows.map (fun r =>
      { proveedor := prov, sku := trimS r.sku, nombre := trimS r.nombre,
        precio := parseDecimal (cleanPrice r.precio) }))

/-- Whole-batch ingestion: files are read in upload order and the first
validation failure halts everything (`st.stop()`), so no records are
produced for any file (app.py lines 109-155). -/
def ingest : List (String × List RawRow) → Except IngestError (List Record)
  | [] => Except.ok []
  | (prov, rows) :: rest =>
    match normalizeFile prov rows with
    | Except.error e => Except.error e
    | Except.ok recs =>
      match ingest rest with
      | Except.error e => Except.error e
      | Except.ok more => Except.ok (recs ++ more)

/-- Occurrence count of one name in a list of names. -/
def count (names : List String) (n : String) : ℕ :=
  (names.filter (fun m => m = n)).length

/-- The set (as a deduplicated list) of names of maximal frequency:
exactly the members of `pandas.Series.mode()` (which keeps empty
strings, since every cell was stringified). -/
def modalNames (names : List String) : List String :=
  (names.dedup).filter (fun n => (names.dedup).all (fun m => count names m ≤ count names n))

/-- Least string of a list under code-point order (default `""` on the
empty list): pandas returns `mode()` sorted ascending, and `.iloc[0]`
takes the least. -/
def minStr : List String → String
  | [] => ""
  | [x] => x
  | x :: y :: xs =>
    if ltChars (minStr (y :: xs)).toList x.toList then minStr (y :: xs) else x

/-- Python `max(s, key=len)`: first element of maximal length. -/
def maxByLen : List String → String
  | [] => ""
  | n :: rest => rest.foldl (fun acc x => if acc.length < x.length then x else acc) n

/-- Canonical name of a SKU group (app.py line 171):
`s.mode().iloc[0] if not s.mode().empty else (max(s, key=len) if len(s) else "")`.
`mode()` sorts ascending, so `.iloc[0]` is the lexicographically least
most-frequent name; the fallback branches are dead for nonempty groups. -/
def canonicalName (names : List String) : String :=
  if modalNames names ≠ [] then minStr (modalNames names)
  else if names ≠ [] then maxByLen names
  else ""

/-- Modelled from the spec (for refinement comparison only; the source
rule is `canonicalName`): "the most frequently occurring non-empty
trimmed name among all supplier records sharing that product_id; on a
frequency tie, the longest name; if no names exist, empty string", with
the spec's suggested lexicographic secondary key after length. -/
def specCanonicalName (names : List String) : String :=
  let nonempty := names.filter (fun n => n ≠ "")
  let best := (nonempty.dedup).filter
    (fun n => (nonempty.dedup).all (fun m => count nonempty m ≤ count nonempty n))
  let longest := best.filter (fun n => best.all (fun m => m.length ≤ n.length))
  if longest = [] then "" else minStr longest

/-- The (re-trimmed, `Nombre_norm`) names of all records sharing a SKU,
in record order (app.py lines 168-171). -/
def namesForSku (recs : List Record) (sku : String) : List String :=
  (recs.filter (fun r => r.sku = sku)).map (fun r => trimS r.nombre)

/-- Every record extended with the canonical name of its SKU group (the
left-merge of `nombres_canon` back onto `merged_df`, app.py line 175). -/
def withCanon (recs : List Record) : List MergedRow :=
  recs.map (fun r =>
    { proveedor := r.proveedor, sku := r.sku, nombre := r.nombre,
      precio := r.precio, nombreCanonico := canonicalName (namesForSku recs r.sku) })

/-- The merged-catalog ordering relation (app.py line 178):
`sort_values(by='SKU')` on a string column, i.e. lexicographic
comparison of the SKU strings. -/
def bySkuLe (a b : MergedRow) : Prop := strLe a.sku b.sku

instance : DecidableRel bySkuLe := fun _ _ => inferInstanceAs (Decidable (_ = true))

/-- The catalog merger (app.py lines 164-178): concatenate all
suppliers' records (the caller passes the concatenation), attach
canonical names, and sort ascending by the SKU string. -/
def mergeCatalog (recs : List Record) : List MergedRow :=
  List.insertionSort bySkuLe (withCanon recs)

/-! ## Price ranker (app.py lines 187-219) -/

/-- The `tmp` frame: the merged rows with a present price
(`dropna(subset=['Precio Unitario'])`, app.py line 187). -/
def priced (m : List MergedRow) : List MergedRow :=
  m.filter (fun r => r.precio.isSome)

/-- Round-half-to-even of the fraction `n / m` (`m > 0`): the rounding
of a general-purpose numeric rounding routine, the implementer-chosen
mode documented for `comparison_price`. -/
def roundHE (n m : ℤ) : ℤ :=
  let q := Int.fdiv n m
  let r := n - m * q
  if 2 * r < m then q
  else if m < 2 * r then q + 1
  else if q % 2 = 0 then q else q + 1

/-- The `Precio_cmp` column (app.py line 188) in units of `10 ^ -p`: the price
rounded to `p` decimals, as an integer count of such units, so that
rounded prices compare by plain integer comparison. -/
def cmpPrice (p : ℕ) (r : MergedRow) : ℤ :=
  let d := r.precio.getD ⟨0, 0⟩
  roundHE (d.num * 10 ^ p) (10 ^ d.scale)

/-- Least integer of a list (default 0 on the empty list). -/
def minOf : List ℤ → ℤ
  | [] => 0
  | [x] => x
  | x :: y :: xs => min x (minOf (y :: xs))

/-- The comparison prices of a SKU's priced rows, in merged order. -/
def groupPrices (m : List MergedRow) (p : ℕ) (sku : String) : List ℤ :=
  ((priced m).filter (fun r => r.sku = sku)).map (cmpPrice p)

/-- The `min_por_sku` value (app.py line 191): minimum comparison price of a SKU. -/
def minCmp (m : List MergedRow) (p : ℕ) (sku : String) : ℤ :=
  minOf (groupPrices m p sku)

/-- The rows of `empates_df` before its sort (app.py line 199): every
priced row whose comparison price equals its SKU's minimum. -/
def tieRowsUnsorted (m : List MergedRow) (p : ℕ) : List MergedRow :=
  (priced m).filter (fun r => cmpPrice p r = minCmp m p r.sku)

/-- The `sort_values(['SKU', 'Proveedor'])` relation (app.py line 200). -/
def leSkuProv (a b : MergedRow) : Prop :=
  (if a.sku ≠ b.sku then strLeB a.sku b.sku else strLeB a.proveedor b.proveedor) = true

instance : DecidableRel leSkuProv := fun _ _ => inferInstanceAs (Decidable (_ = true))

/-- The `empates_df` table (app.py lines 198-202). -/
def empatesDf (m : List MergedRow) (p : ℕ) : List MergedRow :=
  List.insertionSort leSkuProv (tieRowsUnsorted m p)

/-- The `counts` column (app.py line 209): the number of minimum-price rows sharing
a SKU. -/
def groupSize (m : List MergedRow) (p : ℕ) (sku : String) : ℕ :=
  ((empatesDf m p).filter (fun r => r.sku = sku)).length

/-- Result of `pd.to_numeric` on a SKU string (`SKU_num`, app.py line 207):
numeric value when all digits, else `NaN` (`none`). -/
def skuNum (s : String) : Option ℕ := digitsToNat? s.toList

/-- Comparison of optional numeric SKUs, `NaN` sorting last as in
pandas. -/
def optNatLe : Option ℕ → Option ℕ → Bool
  | some a, some b => a ≤ b
  | some _, none => true
  | none, some _ => false
  | none, none => true

/-- The `sort_values(['Proveedor', 'SKU_num', 'SKU_str'])` relation for
`ganadores_unicos` (app.py lines 213-215). -/
def leGan (a b : MergedRow) : Prop :=
  (if a.proveedor ≠ b.proveedor then strLeB a.proveedor b.proveedor
   else if skuNum a.sku ≠ skuNum b.sku then optNatLe (skuNum a.sku) (skuNum b.sku)
   else strLeB a.sku b.sku) = true

instance : DecidableRel leGan := fun _ _ => inferInstanceAs (Decidable (_ = true))

/-- Value comparison of optional decimal prices, `NaN` last. -/
def decLeB : Option Dec → Option Dec → Bool
  | some a, some b => a.num * 10 ^ b.scale ≤ b.num * 10 ^ a.scale
  | some _, none => true
  | none, some _ => false
  | none, none => true

/-- The `sort_values(['SKU_num', 'Proveedor', 'Precio Unitario'])`
relation for `empates_reales` (app.py lines 217-219). -/
def leEmp (a b : MergedRow) : Prop :=
  (if skuNum a.sku ≠ skuNum b.sku then optNatLe (skuNum a.sku) (skuNum b.sku)
   else if a.proveedor ≠ b.proveedor then strLeB a.proveedor b.proveedor
   else decLeB a.precio b.precio) = true

instance : DecidableRel leEmp := fun _ _ => inferInstanceAs (Decidable (_ = true))

/-- The `ganadores_unicos` table (app.py lines 210, 213-215): the singleton
minimum groups. -/
def ganadoresUnicos (m : List MergedRow) (p : ℕ) : List MergedRow :=
  List.insertionSort leGan ((empatesDf m p).filter (fun r => groupSize m p r.sku = 1))

/-- The `empates_reales` table (app.py lines 211, 217-219): the real ties
(minimum groups with more than one member). -/
def empatesReales (m : List MergedRow) (p : ℕ) : List MergedRow :=
  List.insertionSort leEmp ((empatesDf m p).filter (fun r => 1 < groupSize m p r.sku))

/-- First row of a list attaining the minimum comparison price
(`idxmin` semantics: ties keep the earliest row). -/
def firstMinRow (p : ℕ) : List MergedRow → Option MergedRow
  | [] => none
  | r :: rest =>
    match firstMinRow p rest with
    | none => some r
    | some m => if cmpPrice p r ≤ cmpPrice p m then some r else some m

/-- The `mejores_precios_df` table (app.py lines 194-195): for every SKU (in first
appearance order over the priced rows), the first row attaining its
minimum comparison price, then sorted by the SKU string. -/
def mejoresPrecios (m : List MergedRow) (p : ℕ) : List MergedRow :=
  List.insertionSort bySkuLe
    ((((priced m).map (fun r => r.sku)).dedup).filterMap
      (fun sku => firstMinRow p ((priced m).filter (fun r => r.sku = sku))))

/-! ## Tie resolver and order builder (app.py lines 232-393) -/

/-- State of `st.session_state.empate_sel`: chosen supplier per SKU. -/
abbrev TieSel := List (String × String)

/-- State of `st.session_state.cantidades`: quantity per (supplier, SKU). -/
abbrev Cantidades := List ((String × String) × ℕ)

/-- The `skus_empatados` list (app.py line 248): sorted unique SKUs of the real
ties. -/
def skusEmpatados (m : List MergedRow) (p : ℕ) : List String :=
  List.insertionSort strLe (((empatesReales m p).map (fun r => r.sku)).dedup)

/-- The `resueltos` counter (app.py line 251): the number of tied SKUs having any
stored choice (membership of the SKU in `empate_sel`, regardless of
which supplier is stored). -/
def resueltos (m : List MergedRow) (p : ℕ) (sel : TieSel) : ℕ :=
  ((skusEmpatados m p).filter (fun s => (sel.lookup s).isSome)).length

/-- The `elegidas` rows (app.py lines 293-297): for each stored (SKU, supplier)
choice, the first `empates_reales` row matching both, skipped when no
such row exists. -/
def elegidas (m : List MergedRow) (p : ℕ) (sel : TieSel) : List MergedRow :=
  sel.filterMap (fun e =>
    ((empatesReales m p).filter (fun r => r.sku = e.1 ∧ r.proveedor = e.2)).head?)

/-- The `gan_total` table (app.py lines 290-300): unique winners plus the rows
chosen for resolved ties. -/
def ganTotal (m : List MergedRow) (p : ℕ) (sel : TieSel) : List MergedRow :=
  ganadoresUnicos m p ++ elegidas m p sel

/-- The per-supplier `sort_values('SKU_num')` relation (app.py
line 326). -/
def leSkuNum (a b : MergedRow) : Prop := optNatLe (skuNum a.sku) (skuNum b.sku) = true

instance : DecidableRel leSkuNum := fun _ _ => inferInstanceAs (Decidable (_ = true))

/-- The `base` table for one supplier (app.py lines 321-329): that supplier's
winner rows sorted by numeric SKU. -/
def baseFor (m : List MergedRow) (p : ℕ) (sel : TieSel) (prov : String) :
    List MergedRow :=
  List.insertionSort leSkuNum ((ganTotal m p sel).filter (fun r => r.proveedor = prov))

/-- The stored quantity of a (supplier, SKU) key, defaulting to 0
(app.py lines 337-338, 363). -/
def qtyOf (cant : Cantidades) (prov sku : String) : ℕ :=
  (cant.lookup (prov, sku)).getD 0

/-- The `Total` cell `Precio Unitario * Cantidad`, with `NaN` filled as 0
(app.py line 350; line 377 computes the same product on rows whose
price is always present). -/
def lineTotal (pr : Option Dec) (qty : ℕ) : Dec :=
  (pr.map (fun d => ⟨d.num * qty, d.scale⟩)).getD ⟨0, 0⟩

/-- One row of a supplier's order table (columns `Cantidad`, `SKU`,
`Nombre`, `Precio Unitario`, `Total`; app.py lines 348-351). -/
structure OrderLine where
  cantidad : ℕ
  sku : String
  nombre : String
  precio : Option Dec
  total : Dec
deriving DecidableEq, Repr

/-- A supplier's order table (app.py lines 331-383). -/
def orderLines (m : List MergedRow) (p : ℕ) (sel : TieSel) (cant : Cantidades)
    (prov : String) : List OrderLine :=
  (baseFor m p sel prov).map (fun r =>
    { cantidad := qtyOf cant prov r.sku, sku := r.sku, nombre := r.nombreCanonico,
      precio := r.precio, total := lineTotal r.precio (qtyOf cant prov r.sku) })

/-- The `proveedores_orden` list (app.py line 309): sorted unique suppliers of
the winner set. -/
def proveedoresOrden (m : List MergedRow) (p : ℕ) (sel : TieSel) : List String :=
  List.insertionSort strLe (((ganTotal m p sel).map (fun r => r.proveedor)).dedup)

/-- The `subtotal` of one supplier (app.py line 386): the sum of its
`Total` column, as an exact rational value. -/
def subtotal (m : List MergedRow) (p : ℕ) (sel : TieSel) (cant : Cantidades)
    (prov : String) : ℚ :=
  ((orderLines m p sel cant prov).map (fun l => l.total.toQ)).sum

/-- The `total_global` value (app.py line 392): the sum of all supplier
subtotals. -/
def totalGlobal (m : List MergedRow) (p : ℕ) (sel : TieSel) (cant : Cantidades) : ℚ :=
  ((proveedoresOrden m p sel).map (fun prov => subtotal m p sel cant prov)).sum

/-! ## Ranking recomputation state (for the precision round-trip) -/

/-- The ranking partition shown to the operator. -/
structure RankState where
  ganadores : List MergedRow
  empates : List MergedRow
deriving DecidableEq, Repr

/-- One full recomputation of the ranking from the merged catalog and
the precision parameter (app.py lines 187-219 run top to bottom on
every rerun). -/
def recomputeRank (m : List MergedRow) (p : ℕ) : RankState :=
  { ganadores := ganadoresUnicos m p, empates := empatesReales m p }

/-- Effect of the operator changing the precision widget to `p`: the
script reruns and rebuilds the ranking from `merged_df` and `p` alone;
the previous ranking state is not consulted (no line of app.py reads a
prior `ganadores_unicos`/`empates_reales`). -/
def applyPrecisionChange (m : List MergedRow) (p : ℕ) (_st : RankState) : RankState :=
  recomputeRank m p

/-! ## Concrete inputs used by counterexamples and witnesses -/

/-- Concrete records: one SKU `7` quoted by three suppliers whose
trimmed names are `BB`, `A` and the empty string, each name occurring
once. -/
def exRecsC1 : List Record :=
  [⟨"F1", "7", "BB", some ⟨100, 1⟩⟩, ⟨"F2", "7", "A", some ⟨100, 1⟩⟩,
   ⟨"F3", "7", "", none⟩]

/-- Concrete records: one supplier quoting products `2` and `10`. -/
def exRecsC2 : List Record :=
  [⟨"F1", "2", "X", some ⟨5, 0⟩⟩, ⟨"F1", "10", "Y", some ⟨5, 0⟩⟩]

/-- Concrete single-record input for the canonical-name witness. -/
def exRecsW : List Record := [⟨"P", "1", "Amoxi", some ⟨10, 0⟩⟩]

/-- The merged row produced from `exRecsW`. -/
def exRowW : MergedRow := ⟨"P", "1", "Amoxi", some ⟨10, 0⟩, "Amoxi"⟩

/-- Concrete merged rows: SKU `1` tied at price 10.0 between suppliers
`A` and `B`. -/
def exM4 : List MergedRow :=
  [⟨"A", "1", "n", some ⟨100, 1⟩, "n"⟩, ⟨"B", "1", "n", some ⟨100, 1⟩, "n"⟩]

/-- A stored tie choice naming supplier `C`, which quotes nothing. -/
def exSel4 : TieSel := [("1", "C")]

/-- Concrete merged rows: SKU `1` tied between `A` and `B`, SKU `2`
won uniquely by `A`. -/
def exM3 : List MergedRow :=
  [⟨"A", "1", "n", some ⟨100, 1⟩, "n"⟩, ⟨"B", "1", "n", some ⟨100, 1⟩, "n"⟩,
   ⟨"A", "2", "m", some ⟨50, 1⟩, "m"⟩]

/-- Concrete merged rows for the order-builder witnesses: supplier `A`
wins SKUs `1` and `2` uniquely. -/
def exM9 : List MergedRow :=
  [⟨"A", "1", "n", some ⟨100, 1⟩, "n"⟩, ⟨"A", "2", "m", some ⟨50, 1⟩, "m"⟩]

/-- Quantities: 3 units of SKU `1` from supplier `A`. -/
def exCant9 : Cantidades := [(("A", "1"), 3)]

/-- The first order line of supplier `A` produced from `exM9` and
`exCant9`: 3 units of SKU `1` at 10.0, total 30.0. -/
def exLine9 : OrderLine := ⟨3, "1", "n", some ⟨100, 1⟩, ⟨300, 1⟩⟩

/-- Concrete raw file whose second row has a non-digit SKU. -/
def exFilesC6 : List (String × List RawRow) :=
  [("prov1", [⟨"12", "X", "5"⟩, ⟨"12a", "Y", "5"⟩])]

/-- Concrete raw rows for the price-cleaning witness. -/
def exRowsC5 : List RawRow := [⟨" 12 ", "N", "$12,345.6700"⟩]

/-! ## String-order lemmas -/

theorem ltChars_cons_iff {x y : Char} {as bs : List Char} :
    ltChars (x :: as) (y :: bs) = true ↔ x < y ∨ (x = y ∧ ltChars as bs = true) := by
  simp only [ltChars]
  rcases lt_trichotomy x y with h | h | h
  · rw [if_pos h]
    simp [h]
  · subst h
    rw [if_neg (lt_irrefl x), if_neg (lt_irrefl x)]
    simp
  · rw [if_neg (asymm h), if_pos h]
    constructor
    · intro hf
      exact absurd hf (by simp)
    · rintro (hh | ⟨hh, _⟩)
      · exact absurd hh (asymm h)
      · rw [hh] at h
        exact absurd h (lt_irrefl y)

theorem ltChars_irrefl : ∀ l : List Char, ltChars l l = false
  | [] => rfl
  | a :: as => by
    rcases Bool.eq_false_or_eq_true (ltChars (a :: as) (a :: as)) with ht | hf
    · rcases ltChars_cons_iff.mp ht with hh | ⟨_, hh⟩
      · exact absurd hh (lt_irrefl a)
      · rw [ltChars_irrefl as] at hh
        exact absurd hh (by simp)
    · exact hf

theorem ltChars_trans : ∀ {a b c : List Char},
    ltChars a b = true → ltChars b c = true → ltChars a c = true
  | [], [], _, hab, _ => by simp [ltChars] at hab
  | [], _ :: _, [], _, hbc => by simp [ltChars] at hbc
  | [], _ :: _, _ :: _, _, _ => rfl
  | _ :: _, [], _, hab, _ => by simp [ltChars] at hab
  | _ :: _, _ :: _, [], _, hbc => by simp [ltChars] at hbc
  | x :: as, y :: bs, z :: cs, hab, hbc => by
    rw [ltChars_cons_iff] at hab hbc ⊢
    rcases hab with h1 | ⟨he1, h1⟩
    · rcases hbc with h2 | ⟨he2, h2⟩
      · exact Or.inl (lt_trans h1 h2)
      · exact Or.inl (he2 ▸ h1)
    · rcases hbc with h2 | ⟨he2, h2⟩
      · exact Or.inl (he1 ▸ h2)
      · exact Or.inr ⟨he1.trans he2, ltChars_trans h1 h2⟩

theorem ltChars_asymm {a b : List Char} (h : ltChars a b = true) : ltChars b a = false := by
  rcases Bool.eq_false_or_eq_true (ltChars b a) with ht | hf
  · have := ltChars_trans h ht
    rw [ltChars_irrefl] at this
    exact absurd this (by simp)
  · exact hf

theorem ltChars_connex : ∀ {a b : List Char},
    ltChars a b = false → ltChars b a = false → a = b
  | [], [], _, _ => rfl
  | [], _ :: _, hab, _ => by simp [ltChars] at hab
  | _ :: _, [], _, hba => by simp [ltChars] at hba
  | x :: as, y :: bs, hab, hba => by
    have hab' : ¬ (x < y ∨ (x = y ∧ ltChars as bs = true)) := by
      rw [← ltChars_cons_iff, hab]; simp
    have hba' : ¬ (y < x ∨ (y = x ∧ ltChars bs as = true)) := by
      rw [← ltChars_cons_iff, hba]; simp
    push_neg at hab' hba'
    rcases lt_trichotomy x y with h | h | h
    · exact absurd h (not_lt.mpr hab'.1)
    · have h1 : ltChars as bs = false := by
        rcases Bool.eq_false_or_eq_true (ltChars as bs) with ht | hf
        · exact absurd ht (hab'.2 h)
        · exact hf
      have h2 : ltChars bs as = false := by
        rcases Bool.eq_false_or_eq_true (ltChars bs as) with ht | hf
        · exact absurd ht (hba'.2 h.symm)
        · exact hf
      rw [h, ltChars_connex h1 h2]
    · exact absurd h (not_lt.mpr hba'.1)

theorem string_toList_inj {a b : String} (h : a.toList = b.toList) : a = b := by
  cases a
  cases b
  exact congrArg String.mk (by simpa [String.toList] using h)

theorem strLe_of_not_lt {a b : String} (h : ltChars b.toList a.toList = false) :
    strLe a b := by
  unfold strLe strLeB
  rw [h]
  rfl

theorem ltChars_eq_false_of_strLe {a b : String} (h : strLe a b) :
    ltChars b.toList a.toList = false := by
  unfold strLe strLeB at h
  rcases Bool.eq_false_or_eq_true (ltChars b.toList a.toList) with ht | hf
  · rw [ht] at h
    exact absurd h (by simp)
  · exact hf

theorem strLe_refl (a : String) : strLe a a :=
  strLe_of_not_lt (ltChars_irrefl _)

theorem strLe_total (a b : String) : strLe a b ∨ strLe b a := by
  rcases Bool.eq_false_or_eq_true (ltChars b.toList a.toList) with ht | hf
  · exact Or.inr (strLe_of_not_lt (ltChars_asymm ht))
  · exact Or.inl (strLe_of_not_lt hf)

theorem strLe_trans {a b c : String} (hab : strLe a b) (hbc : strLe b c) : strLe a c := by
  have hba := ltChars_eq_false_of_strLe hab
  have hcb := ltChars_eq_false_of_strLe hbc
  apply strLe_of_not_lt
  rcases Bool.eq_false_or_eq_true (ltChars c.toList a.toList) with hca | hf
  · exfalso
    rcases Bool.eq_false_or_eq_true (ltChars b.toList c.toList) with hbc' | hbc'
    · have : ltChars b.toList a.toList = true := ltChars_trans hbc' hca
      rw [this] at hba
      exact absurd hba (by simp)
    · have hbceq : b.toList = c.toList := ltChars_connex hbc' hcb
      rw [← hbceq] at hca
      rw [hca] at hba
      exact absurd hba (by simp)
  · exact hf

theorem strLe_antisymm {a b : String} (hab : strLe a b) (hba : strLe b a) : a = b :=
  string_toList_inj
    (ltChars_connex (ltChars_eq_false_of_strLe hba) (ltChars_eq_false_of_strLe hab))

/-! ## Minimum-of-list lemmas -/

theorem minStr_mem : ∀ {l : List String}, l ≠ [] → minStr l ∈ l
  | [], h => absurd rfl h
  | [x], _ => by simp [minStr]
  | x :: y :: xs, _ => by
    unfold minStr
    have ih := minStr_mem (l := y :: xs) (by simp)
    by_cases h : ltChars (minStr (y :: xs)).toList x.toList = true
    · rw [if_pos h]
      exact List.mem_cons_of_mem x ih
    · rw [if_neg h]
      exact List.mem_cons_self x _

theorem minStr_le : ∀ {l : List String}, ∀ x ∈ l, strLe (minStr l) x
  | [], x, hx => absurd hx (List.not_mem_nil x)
  | [a], x, hx => by
    rw [List.mem_singleton] at hx
    subst hx
    simp only [minStr]
    exact strLe_refl x
  | a :: b :: bs, x, hx => by
    unfold minStr
    have ih := fun z hz => minStr_le (l := b :: bs) z hz
    by_cases h : ltChars (minStr (b :: bs)).toList a.toList = true
    · rw [if_pos h]
      rcases List.mem_cons.mp hx with he | hm
      · subst he
        exact strLe_of_not_lt (ltChars_asymm h)
      · exact ih x hm
    · rw [if_neg h]
      rcases List.mem_cons.mp hx with he | hm
      · subst he
        exact strLe_refl x
      · have hb : ltChars (minStr (b :: bs)).toList a.toList = false := by
          rcases Bool.eq_false_or_eq_true (ltChars (minStr (b :: bs)).toList a.toList)
            with ht | hf
          · exact absurd ht h
          · exact hf
        exact strLe_trans (strLe_of_not_lt hb) (ih x hm)

theorem minOf_mem : ∀ {l : List ℤ}, l ≠ [] → minOf l ∈ l
  | [], h => absurd rfl h
  | [x], _ => by simp [minOf]
  | x :: y :: xs, _ => by
    unfold minOf
    have ih := minOf_mem (l := y :: xs) (by simp)
    rcases min_cases x (minOf (y :: xs)) with ⟨he, _⟩ | ⟨he, _⟩
    · rw [he]
      exact List.mem_cons_self x _
    · rw [he]
      exact List.mem_cons_of_mem x ih

theorem minOf_le : ∀ {l : List ℤ}, ∀ x ∈ l, minOf l ≤ x
  | [], x, hx => absurd hx (List.not_mem_nil x)
  | [a], x, hx => by
    rw [List.mem_singleton] at hx
    subst hx
    simp [minOf]
  | a :: b :: bs, x, hx => by
    unfold minOf
    rcases List.mem_cons.mp hx with he | hm
    · subst he
      exact min_le_left _ _
    · exact le_trans (min_le_right _ _) (minOf_le x hm)

/-! ## Generic helpers -/

theorem mem_sort {r : MergedRow → MergedRow → Prop} [DecidableRel r]
    {l : List MergedRow} {a : MergedRow} :
    a ∈ List.insertionSort r l ↔ a ∈ l :=
  (List.perm_insertionSort r l).mem_iff

theorem mem_sortStr {r : String → String → Prop} [DecidableRel r]
    {l : List String} {a : String} :
    a ∈ List.insertionSort r l ↔ a ∈ l :=
  (List.perm_insertionSort r l).mem_iff

theorem exists_max_by (f : String → ℕ) :
    ∀ {l : List String}, l ≠ [] → ∃ n ∈ l, ∀ m ∈ l, f m ≤ f n
  | [], h => absurd rfl h
  | [x], _ => ⟨x, by simp, by simp⟩
  | x :: y :: xs, _ => by
    obtain ⟨n, hn, hmax⟩ := exists_max_by f (l := y :: xs) (by simp)
    by_cases h : f n ≤ f x
    · refine ⟨x, by simp, ?_⟩
      intro m hm
      rcases List.mem_cons.mp hm with he | hm'
      · subst he
        exact le_refl _
      · exact le_trans (hmax m hm') h
    · push_neg at h
      refine ⟨n, List.mem_cons_of_mem x hn, ?_⟩
      intro m hm
      rcases List.mem_cons.mp hm with he | hm'
      · subst he
        exact le_of_lt h
      · exact hmax m hm'

/-! ## Canonical-name lemmas -/

theorem mem_modalNames_iff {names : List String} {n : String} :
    n ∈ modalNames names ↔
      n ∈ names.dedup ∧ ∀ m ∈ names.dedup, count names m ≤ count names n := by
  simp [modalNames, List.mem_filter, List.all_eq_true, decide_eq_true_eq]

theorem modalNames_ne_nil {names : List String} (h : names ≠ []) :
    modalNames names ≠ [] := by
  have hd : names.dedup ≠ [] := by simpa [List.dedup_eq_nil] using h
  obtain ⟨n, hn, hmax⟩ := exists_max_by (count names) hd
  exact List.ne_nil_of_mem (mem_modalNames_iff.mpr ⟨hn, hmax⟩)

theorem canonicalName_spec {names : List String} (h : names ≠ []) :
    canonicalName names ∈ names ∧
    (∀ n ∈ names, count names n ≤ count names (canonicalName names)) ∧
    (∀ n ∈ names, count names n = count names (canonicalName names) →
      strLe (canonicalName names) n) := by
  have hm := modalNames_ne_nil h
  have hc : canonicalName names = minStr (modalNames names) := by
    unfold canonicalName
    rw [if_pos hm]
  have hmem : minStr (modalNames names) ∈ modalNames names := minStr_mem hm
  obtain ⟨hdedup, hmax⟩ := mem_modalNames_iff.mp hmem
  refine ⟨?_, ?_, ?_⟩
  · rw [hc]
    exact List.mem_dedup.mp hdedup
  · intro n hn
    rw [hc]
    exact hmax n (List.mem_dedup.mpr hn)
  · intro n hn heq
    rw [hc] at heq ⊢
    apply minStr_le
    apply mem_modalNames_iff.mpr
    refine ⟨List.mem_dedup.mpr hn, ?_⟩
    intro m hm
    rw [heq]
    exact hmax m hm

theorem mem_mergeCatalog_iff {recs : List Record} {r : MergedRow} :
    r ∈ mergeCatalog recs ↔ r ∈ withCanon recs :=
  (List.perm_insertionSort bySkuLe (withCanon recs)).mem_iff

theorem mem_withCanon {recs : List Record} {r : MergedRow} (h : r ∈ withCanon recs) :
    ∃ r0 ∈ recs,
      r = ⟨r0.proveedor, r0.sku, r0.nombre, r0.precio,
            canonicalName (namesForSku recs r0.sku)⟩ := by
  unfold withCanon at h
  obtain ⟨r0, hr0, he⟩ := List.mem_map.mp h
  exact ⟨r0, hr0, he.symm⟩

theorem namesForSku_ne_nil {recs : List Record} {r0 : Record} (h : r0 ∈ recs) :
    namesForSku recs r0.sku ≠ [] := by
  unfold namesForSku
  have hmem : r0 ∈ recs.filter (fun r => r.sku = r0.sku) := by
    rw [List.mem_filter]
    exact ⟨h, by simp⟩
  intro hnil
  rw [List.map_eq_nil_iff] at hnil
  rw [hnil] at hmem
  exact List.not_mem_nil _ hmem

/-! ## Claim C1 -/

/-- C1, counterexample: with names `BB`, `A`, `` (one occurrence each)
for SKU `7`, the merger's canonical name is the empty string (the
lexicographically least of the tied names, empty included), while the
claimed rule — most frequent non-empty name, frequency ties broken by
the longest name — yields `BB`. -/
theorem C1_counterexample :
    (mergeCatalog exRecsC1).map (fun r => r.nombreCanonico) = ["", "", ""] ∧
    specCanonicalName (namesForSku exRecsC1 ("7")) = "BB" ∧
    canonicalName (namesForSku exRecsC1 ("7")) ≠
      specCanonicalName (namesForSku exRecsC1 ("7")) := by
  refine ⟨by decide, by decide, by decide⟩

/-- C1 (amended): for every product_id, the canonical name computed by
the catalog merger is one of the trimmed names of the records sharing
that product_id (empty names included), it occurs at least as often as
every other such name, and among equally frequent names it is the
lexicographically least (code-point order) — not the longest, and
empty names are not excluded. -/
theorem C1_canonical_name_of_merger (recs : List Record) (r : MergedRow)
    (h : r ∈ mergeCatalog recs) :
    r.nombreCanonico ∈ namesForSku recs r.sku ∧
    (∀ n ∈ namesForSku recs r.sku,
      count (namesForSku recs r.sku) n ≤ count (namesForSku recs r.sku) r.nombreCanonico) ∧
    (∀ n ∈ namesForSku recs r.sku,
      count (namesForSku recs r.sku) n = count (namesForSku recs r.sku) r.nombreCanonico →
      strLe r.nombreCanonico n) := by
  obtain ⟨r0, hr0, he⟩ := mem_withCanon (mem_mergeCatalog_iff.mp h)
  have hsku : r.sku = r0.sku := by rw [he]
  have hcn : r.nombreCanonico = canonicalName (namesForSku recs r0.sku) := by rw [he]
  rw [hsku, hcn]
  exact canonicalName_spec (namesForSku_ne_nil hr0)

/-- C1 witness: the amended canonical-name theorem evaluated on the
one-record input `exRecsW`. -/
theorem C1_canonical_name_of_merger_witness :
    exRowW.nombreCanonico ∈ namesForSku exRecsW exRowW.sku ∧
    (∀ n ∈ namesForSku exRecsW exRowW.sku,
      count (namesForSku exRecsW exRowW.sku) n ≤
        count (namesForSku exRecsW exRowW.sku) exRowW.nombreCanonico) ∧
    (∀ n ∈ namesForSku exRecsW exRowW.sku,
      count (namesForSku exRecsW exRowW.sku) n =
        count (namesForSku exRecsW exRowW.sku) exRowW.nombreCanonico →
      strLe exRowW.nombreCanonico n) :=
  C1_canonical_name_of_merger exRecsW exRowW (by decide)

/-! ## Claim C2 -/

/-- C2, counterexample: on an input containing products `2` and `10`,
the merged catalog lists `10` before `2` — `sort_values` on the string
column `SKU` orders lexicographically, not numerically. -/
theorem C2_counterexample :
    (mergeCatalog exRecsC2).map (fun r => r.sku) = ["10", "2"] := by decide

/-- C2 (amended): the merged catalog is ordered ascending by product_id
compared lexicographically as a string (code-point order), and it is a
permutation of the canonical-name-extended input records; in
particular, for digit strings of unequal length such as `2` and `10`,
`10` sorts before `2`. -/
theorem C2_merged_order_lexicographic (recs : List Record) :
    List.Sorted bySkuLe (mergeCatalog recs) ∧
    (mergeCatalog recs).Perm (withCanon recs) := by
  constructor
  · haveI : IsTotal MergedRow bySkuLe := ⟨fun a b => strLe_total a.sku b.sku⟩
    haveI : IsTrans MergedRow bySkuLe := ⟨fun _ _ _ h h' => strLe_trans h h'⟩
    exact List.sorted_insertionSort bySkuLe (withCanon recs)
  · exact List.perm_insertionSort bySkuLe (withCanon recs)

/-! ## Claim C8 -/

/-- C8: recomputing the ranking is a pure function of the merged
catalog and the precision parameter — the operator changing precision
from `p1` to `p2` and back to `p1` reproduces exactly the original
partition into unique winners and real ties, and the result never
depends on the previous ranking state. -/
theorem C8_precision_roundtrip (m : List MergedRow) (p1 p2 : ℕ) (st st' : RankState) :
    applyPrecisionChange m p1 (applyPrecisionChange m p2 (applyPrecisionChange m p1 st)) =
      applyPrecisionChange m p1 st ∧
    applyPrecisionChange m p1 st = applyPrecisionChange m p1 st' ∧
    (applyPrecisionChange m p1 st).ganadores = ganadoresUnicos m p1 ∧
    (applyPrecisionChange m p1 st).empates = empatesReales m p1 :=
  ⟨rfl, rfl, rfl, rfl⟩

/-! ## Ranking lemmas -/

theorem mem_priced {m : List MergedRow} {r : MergedRow} :
    r ∈ priced m ↔ r ∈ m ∧ r.precio.isSome := by
  simp [priced, List.mem_filter]

theorem exists_tieRow {m : List MergedRow} (p : ℕ) {sku : String}
    (h : ∃ r ∈ m, r.sku = sku ∧ r.precio.isSome) :
    ∃ r ∈ tieRowsUnsorted m p, r.sku = sku := by
  obtain ⟨r, hr, hsku, hsome⟩ := h
  have hrP : r ∈ priced m := mem_priced.mpr ⟨hr, hsome⟩
  have hrG : r ∈ (priced m).filter (fun x => x.sku = sku) := by
    rw [List.mem_filter]
    exact ⟨hrP, by simp [hsku]⟩
  have hGne : (priced m).filter (fun x => x.sku = sku) ≠ [] := List.ne_nil_of_mem hrG
  have hPne : groupPrices m p sku ≠ [] := by
    unfold groupPrices
    simpa [List.map_eq_nil_iff] using hGne
  have hmin : minCmp m p sku ∈ groupPrices m p sku := minOf_mem hPne
  unfold groupPrices at hmin
  obtain ⟨r', hr', he⟩ := List.mem_map.mp hmin
  rw [List.mem_filter] at hr'
  have hsku' : r'.sku = sku := by simpa using hr'.2
  refine ⟨r', ?_, hsku'⟩
  unfold tieRowsUnsorted
  rw [List.mem_filter]
  refine ⟨hr'.1, ?_⟩
  simp [hsku', he]

theorem mem_empatesDf_iff {m : List MergedRow} {p : ℕ} {r : MergedRow} :
    r ∈ empatesDf m p ↔ r ∈ tieRowsUnsorted m p :=
  (List.perm_insertionSort leSkuProv (tieRowsUnsorted m p)).mem_iff

/-! ## Claim C3 -/

/-- C3: for every merged input and every precision, the ranking step
partitions the priced product_ids totally — each product_id having at
least one row with a present unit price appears among the SKUs of
exactly one of `ganadores_unicos` (its minimum group is a singleton)
and `empates_reales` (its minimum group has more than one member). -/
theorem C3_ranking_partition (m : List MergedRow) (p : ℕ) (sku : String)
    (h : ∃ r ∈ m, r.sku = sku ∧ r.precio.isSome) :
    (sku ∈ (ganadoresUnicos m p).map (fun r => r.sku) ∧
     sku ∉ (empatesReales m p).map (fun r => r.sku)) ∨
    (sku ∉ (ganadoresUnicos m p).map (fun r => r.sku) ∧
     sku ∈ (empatesReales m p).map (fun r => r.sku)) := by
  obtain ⟨r0, hr0, hsku0⟩ := exists_tieRow p h
  have hr0' : r0 ∈ empatesDf m p := mem_empatesDf_iff.mpr hr0
  have hmemG : r0 ∈ (empatesDf m p).filter (fun x => x.sku = sku) := by
    rw [List.mem_filter]
    exact ⟨hr0', by simp [hsku0]⟩
  have hpos : 0 < groupSize m p sku := by
    unfold groupSize
    exact List.length_pos.mpr (List.ne_nil_of_mem hmemG)
  by_cases h1 : groupSize m p sku = 1
  · left
    constructor
    · apply List.mem_map.mpr
      refine ⟨r0, ?_, hsku0⟩
      apply mem_sort.mpr
      rw [List.mem_filter]
      exact ⟨hr0', by simp [hsku0, h1]⟩
    · intro hmem
      obtain ⟨r1, hr1, hsku1⟩ := List.mem_map.mp hmem
      have hr1' := mem_sort.mp hr1
      rw [List.mem_filter] at hr1'
      have hgt : 1 < groupSize m p r1.sku := by simpa using hr1'.2
      rw [hsku1, h1] at hgt
      exact absurd hgt (by omega)
  · right
    have h2 : 1 < groupSize m p sku := by omega
    constructor
    · intro hmem
      obtain ⟨r1, hr1, hsku1⟩ := List.mem_map.mp hmem
      have hr1' := mem_sort.mp hr1
      rw [List.mem_filter] at hr1'
      have heq : groupSize m p r1.sku = 1 := by simpa using hr1'.2
      rw [hsku1] at heq
      exact h1 heq
    · apply List.mem_map.mpr
      refine ⟨r0, ?_, hsku0⟩
      apply mem_sort.mpr
      rw [List.mem_filter]
      exact ⟨hr0', by simp [hsku0, h2]⟩

/-- C3 witness: the partition theorem evaluated at the concrete input
`exM3`, SKU `1`, precision 2. -/
theorem C3_ranking_partition_witness :
    ("1" ∈ (ganadoresUnicos exM3 2).map (fun r => r.sku) ∧
     "1" ∉ (empatesReales exM3 2).map (fun r => r.sku)) ∨
    ("1" ∉ (ganadoresUnicos exM3 2).map (fun r => r.sku) ∧
     "1" ∈ (empatesReales exM3 2).map (fun r => r.sku)) :=
  C3_ranking_partition exM3 2 ("1") ⟨⟨"A", "1", "n", some ⟨100, 1⟩, "n"⟩, by decide⟩

/-! ## First-minimum lemmas (idxmin semantics) -/

theorem firstMinRow_spec (p : ℕ) : ∀ {l : List MergedRow}, l ≠ [] →
    ∃ l1 r l2, l = l1 ++ r :: l2 ∧ firstMinRow p l = some r ∧
      (∀ x ∈ l1, cmpPrice p r < cmpPrice p x) ∧
      (∀ x ∈ l, cmpPrice p r ≤ cmpPrice p x)
  | [], h => absurd rfl h
  | [a], _ => ⟨[], a, [], rfl, by simp [firstMinRow], by simp, by simp⟩
  | a :: b :: bs, _ => by
    obtain ⟨l1, r, l2, hdecomp, hfirst, hless, hmin⟩ :=
      firstMinRow_spec p (l := b :: bs) (by simp)
    by_cases h : cmpPrice p a ≤ cmpPrice p r
    · refine ⟨[], a, b :: bs, rfl, ?_, by simp, ?_⟩
      · unfold firstMinRow
        rw [hfirst]
        simp [h]
      · intro x hx
        rcases List.mem_cons.mp hx with he | hm
        · subst he
          exact le_refl _
        · exact le_trans h (hmin x hm)
    · push_neg at h
      refine ⟨a :: l1, r, l2, by rw [hdecomp]; rfl, ?_, ?_, ?_⟩
      · unfold firstMinRow
        rw [hfirst]
        simp [not_le.mpr h]
      · intro x hx
        rcases List.mem_cons.mp hx with he | hm
        · subst he
          exact h
        · exact hless x hm
      · intro x hx
        rcases List.mem_cons.mp hx with he | hm
        · subst he
          exact le_of_lt h
        · exact hmin x hm

theorem firstMinRow_mem (p : ℕ) {l : List MergedRow} {r : MergedRow}
    (h : firstMinRow p l = some r) : r ∈ l := by
  have hne : l ≠ [] := by
    intro he
    subst he
    simp [firstMinRow] at h
  obtain ⟨l1, r', l2, hdecomp, hfirst, _, _⟩ := firstMinRow_spec p hne
  rw [hfirst] at h
  cases h
  rw [hdecomp]
  exact List.mem_append_right l1 (List.mem_cons_self _ _)

theorem pick_sku {m : List MergedRow} {p : ℕ} {k : String} {r : MergedRow}
    (h : firstMinRow p ((priced m).filter (fun x => x.sku = k)) = some r) :
    r.sku = k := by
  have := firstMinRow_mem p h
  rw [List.mem_filter] at this
  simpa using this.2

theorem filter_filterMap_pick_nil {m : List MergedRow} {p : ℕ} {sku : String} :
    ∀ {ks : List String}, sku ∉ ks →
      (ks.filterMap
        (fun k => firstMinRow p ((priced m).filter (fun x => x.sku = k)))).filter
        (fun x => x.sku = sku) = []
  | [], _ => rfl
  | k :: ks, hnot => by
    have hk : k ≠ sku := fun he => hnot (he ▸ List.mem_cons_self k ks)
    have hks : sku ∉ ks := fun hm => hnot (List.mem_cons_of_mem k hm)
    rw [List.filterMap_cons]
    cases hpick : firstMinRow p ((priced m).filter (fun x => x.sku = k)) with
    | none => exact filter_filterMap_pick_nil hks
    | some rk =>
      rw [List.filter_cons]
      have : ¬ (rk.sku = sku) := by
        rw [pick_sku hpick]
        exact hk
      simp only [this, decide_eq_true_eq, if_neg, decide_False]
      · exact filter_filterMap_pick_nil hks

theorem filter_filterMap_pick {m : List MergedRow} {p : ℕ} {sku : String}
    {r : MergedRow}
    (hr : firstMinRow p ((priced m).filter (fun x => x.sku = sku)) = some r) :
    ∀ {ks : List String}, ks.Nodup → sku ∈ ks →
      (ks.filterMap
        (fun k => firstMinRow p ((priced m).filter (fun x => x.sku = k)))).filter
        (fun x => x.sku = sku) = [r]
  | [], _, hmem => absurd hmem (List.not_mem_nil sku)
  | k :: ks, hnodup, hmem => by
    rw [List.filterMap_cons]
    by_cases hk : k = sku
    · subst hk
      rw [hr, List.filter_cons]
      have hsku : r.sku = k := pick_sku hr
      simp only [hsku, decide_True, if_pos]
      have hnotin : k ∉ ks := (List.nodup_cons.mp hnodup).1
      rw [filter_filterMap_pick_nil hnotin]
    · have hmem' : sku ∈ ks := by
        rcases List.mem_cons.mp hmem with he | hm
        · exact absurd he.symm hk
        · exact hm
      have hnodup' : ks.Nodup := (List.nodup_cons.mp hnodup).2
      cases hpick : firstMinRow p ((priced m).filter (fun x => x.sku = k)) with
      | none => exact filter_filterMap_pick hr hnodup' hmem'
      | some rk =>
        rw [List.filter_cons]
        have : ¬ (rk.sku = sku) := by
          rw [pick_sku hpick]
          exact hk
        simp only [this, decide_eq_true_eq, if_neg, decide_False]
        exact filter_filterMap_pick hr hnodup' hmem'

/-! ## Claim C10 -/

/-- C10: for every input and precision, the best-price table
`mejores_precios_df` contains exactly one row per product_id having at
least one priced record; that single row is the first occurrence of
the minimum comparison price in the merged row order (idxmin keeps the
earliest index), every earlier priced row of the product being
strictly above the minimum — so a real tie still yields exactly one
entry. -/
theorem C10_best_price_unique (m : List MergedRow) (p : ℕ) (sku : String)
    (h : ∃ r ∈ m, r.sku = sku ∧ r.precio.isSome) :
    ∃ l1 r l2,
      (priced m).filter (fun x => x.sku = sku) = l1 ++ r :: l2 ∧
      cmpPrice p r = minCmp m p sku ∧
      (∀ x ∈ l1, minCmp m p sku < cmpPrice p x) ∧
      (mejoresPrecios m p).filter (fun x => x.sku = sku) = [r] := by
  obtain ⟨r0, hr0, hsku0, hsome0⟩ := h
  have hr0G : r0 ∈ (priced m).filter (fun x => x.sku = sku) := by
    rw [List.mem_filter]
    exact ⟨mem_priced.mpr ⟨hr0, hsome0⟩, by simp [hsku0]⟩
  have hGne : (priced m).filter (fun x => x.sku = sku) ≠ [] := List.ne_nil_of_mem hr0G
  obtain ⟨l1, r, l2, hdecomp, hfirst, hless, hmin⟩ := firstMinRow_spec p hGne
  have hrG : r ∈ (priced m).filter (fun x => x.sku = sku) := by
    rw [hdecomp]
    exact List.mem_append_right l1 (List.mem_cons_self _ _)
  have hcmp : cmpPrice p r = minCmp m p sku := by
    have h1 : minCmp m p sku ≤ cmpPrice p r := by
      apply minOf_le
      unfold groupPrices
      exact List.mem_map.mpr ⟨r, hrG, rfl⟩
    have h2 : cmpPrice p r ≤ minCmp m p sku := by
      have hmem : minCmp m p sku ∈ groupPrices m p sku := by
        apply minOf_mem
        unfold groupPrices
        simpa [List.map_eq_nil_iff] using hGne
      unfold groupPrices at hmem
      obtain ⟨x, hx, he⟩ := List.mem_map.mp hmem
      rw [← he]
      exact hmin x hx
    exact le_antisymm h2 h1
  refine ⟨l1, r, l2, hdecomp, hcmp, ?_, ?_⟩
  · intro x hx
    rw [← hcmp]
    exact hless x hx
  · have hskus : sku ∈ ((priced m).map (fun x => x.sku)).dedup := by
      rw [List.mem_dedup]
      apply List.mem_map.mpr
      refine ⟨r0, ?_, hsku0⟩
      exact (List.mem_filter.mp hr0G).1
    have hnodup : (((priced m).map (fun x => x.sku)).dedup).Nodup := List.nodup_dedup _
    have hunsorted := filter_filterMap_pick (m := m) (p := p) hfirst hnodup hskus
    have hperm : ((mejoresPrecios m p).filter (fun x => x.sku = sku)).Perm
        (((((priced m).map (fun x => x.sku)).dedup).filterMap
          (fun k => firstMinRow p ((priced m).filter (fun x => x.sku = k)))).filter
          (fun x => x.sku = sku)) :=
      (List.perm_insertionSort bySkuLe _).filter _
    rw [hunsorted] at hperm
    exact List.perm_singleton.mp hperm

/-- C10 witness: the best-price-uniqueness theorem evaluated at the
concrete input `exM3`, SKU `2`, precision 2. -/
theorem C10_best_price_unique_witness :
    ∃ l1 r l2,
      (priced exM3).filter (fun x => x.sku = "2") = l1 ++ r :: l2 ∧
      cmpPrice 2 r = minCmp exM3 2 ("2") ∧
      (∀ x ∈ l1, minCmp exM3 2 ("2") < cmpPrice 2 x) ∧
      (mejoresPrecios exM3 2).filter (fun x => x.sku = "2") = [r] :=
  C10_best_price_unique exM3 2 ("2") ⟨⟨"A", "2", "m", some ⟨50, 1⟩, "m"⟩, by decide⟩

/-! ## Association-list lemmas -/

theorem head?_mem {α : Type} {l : List α} {a : α} (h : l.head? = some a) : a ∈ l := by
  cases l with
  | nil => simp at h
  | cons x xs =>
    simp only [List.head?_cons, Option.some.injEq] at h
    subst h
    exact List.mem_cons_self _ _

theorem lookup_nodup_mem {sel : TieSel} {sku prov q : String}
    (hn : (sel.map Prod.fst).Nodup)
    (hl : sel.lookup sku = some prov)
    (hmem : (sku, q) ∈ sel) : q = prov := by
  induction sel with
  | nil => exact absurd hmem (List.not_mem_nil _)
  | cons e rest ih =>
    obtain ⟨k, v⟩ := e
    rw [List.map_cons, List.nodup_cons] at hn
    by_cases hk : k = sku
    · subst hk
      have hv : v = prov := by simpa [List.lookup] using hl
      rcases List.mem_cons.mp hmem with he | hm
      · have : q = v := congrArg Prod.snd he
        rw [this, hv]
      · exfalso
        apply hn.1
        apply List.mem_map.mpr
        exact ⟨(k, q), hm, rfl⟩
    · have hsk : (sku == k) = false := beq_eq_false_iff_ne.mpr (fun h => hk h.symm)
      have hl' : rest.lookup sku = some prov := by
        simpa [List.lookup, hsk] using hl
      rcases List.mem_cons.mp hmem with he | hm
      · exact absurd (congrArg Prod.fst he).symm hk
      · exact ih hn.2 hl' hm

/-! ## Claim C4 -/

/-- C4, counterexample: in the state `exM4` — SKU `1` genuinely tied
between suppliers `A` and `B` — a stored choice naming supplier `C`,
which is not a member of the tie group, contributes no chosen row to
the orderable set, yet the progress counter still counts SKU `1` as a
resolved tie (`resueltos = 1`), so the stale choice is not treated as
unresolved everywhere downstream. -/
theorem C4_counterexample :
    exSel4.lookup ("1") = some ("C") ∧
    "C" ∉ ((empatesReales exM4 2).filter (fun r => r.sku = "1")).map
      (fun r => r.proveedor) ∧
    elegidas exM4 2 exSel4 = [] ∧
    resueltos exM4 2 exSel4 = 1 :=
  ⟨by decide, by decide, by decide, by decide⟩

/-- C4 (amended): a stored choice naming a supplier that is not
currently a member of that product_id's real-tie group contributes no
chosen row to the orderable set (and no error exists on this path),
but it is still counted as a resolved tie by the progress counter: any
tied product_id with a stored choice contributes to `resueltos`,
whether or not the chosen supplier is in the group. -/
theorem C4_stale_choice_behaviour (m : List MergedRow) (p : ℕ) (sel : TieSel)
    (sku prov : String)
    (hn : (sel.map Prod.fst).Nodup)
    (hl : sel.lookup sku = some prov)
    (hstale : prov ∉ ((empatesReales m p).filter (fun r => r.sku = sku)).map
      (fun r => r.proveedor)) :
    (∀ r ∈ elegidas m p sel, r.sku ≠ sku) ∧
    (sku ∈ skusEmpatados m p → 0 < resueltos m p sel) := by
  constructor
  · intro r hr hsku
    unfold elegidas at hr
    obtain ⟨e, he, hpick⟩ := List.mem_filterMap.mp hr
    obtain ⟨sku', prov'⟩ := e
    have hrmem := head?_mem hpick
    rw [List.mem_filter] at hrmem
    have hprops : r.sku = sku' ∧ r.proveedor = prov' := by simpa using hrmem.2
    have hks : sku' = sku := by rw [← hprops.1, hsku]
    subst hks
    have hq : prov' = prov := lookup_nodup_mem hn hl he
    subst hq
    apply hstale
    apply List.mem_map.mpr
    refine ⟨r, ?_, hprops.2⟩
    rw [List.mem_filter]
    exact ⟨hrmem.1, by simp [hsku]⟩
  · intro hmem
    unfold resueltos
    apply List.length_pos.mpr
    apply List.ne_nil_of_mem (a := sku)
    rw [List.mem_filter]
    exact ⟨hmem, by simp [hl]⟩

/-- C4 witness: the stale-choice theorem evaluated at the concrete
state `exM4` with the stored choice `("1", "C")`. -/
theorem C4_stale_choice_behaviour_witness :
    (∀ r ∈ elegidas exM4 2 exSel4, r.sku ≠ "1") ∧
    ("1" ∈ skusEmpatados exM4 2 → 0 < resueltos exM4 2 exSel4) :=
  C4_stale_choice_behaviour exM4 2 exSel4 ("1") ("C") (by decide) (by decide) (by decide)

/-! ## Claim C5 -/

/-- C5: every unit-price cell is cleaned by keeping only digits, `.`,
`-` and `,`, then removing every `,`, then parsing the remainder as a
decimal number — `"$12,345.6700"` parses to the exact value 12345.67;
a still-unparseable value becomes absent instead of raising, and for
every successfully normalized file the parsed prices are exactly the
cleaned-and-parsed raw cells; a row whose price is absent still
appears in the merged catalog but is excluded from the ranking input
(`dropna`). -/
theorem C5_price_cleaning :
    (parseDecimal (cleanPrice ("$12,345.6700")) = some ⟨123456700, 4⟩ ∧
      Dec.toQ ⟨123456700, 4⟩ = 12345.67) ∧
    (∀ prov rows recs, normalizeFile prov rows = Except.ok recs →
      recs.map (fun r => r.precio) =
        rows.map (fun w => parseDecimal (cleanPrice w.precio))) ∧
    (∀ recs (r : MergedRow), r ∈ withCanon recs → r.precio = none →
      r ∈ mergeCatalog recs ∧ r ∉ priced (mergeCatalog recs)) := by
  refine ⟨⟨by decide, ?_⟩, ?_, ?_⟩
  · norm_num [Dec.toQ]
  · intro prov rows recs hok
    simp only [normalizeFile] at hok
    by_cases hinv : rows.filter (fun r => ! skuValidB (trimS r.sku)) ≠ []
    · rw [if_pos hinv] at hok
      exact absurd hok (by simp)
    · rw [if_neg hinv] at hok
      have he := Except.ok.inj hok
      rw [← he, List.map_map]
      rfl
  · intro recs r hr hnone
    refine ⟨mem_mergeCatalog_iff.mpr hr, ?_⟩
    intro hp
    rw [mem_priced] at hp
    rw [hnone] at hp
    simp at hp

/-- C5 witness: the normalized prices of the concrete file `exRowsC5`
are exactly the cleaned-and-parsed raw price cells. -/
theorem C5_price_cleaning_witness :
    ([⟨"P", "12", "N", some ⟨123456700, 4⟩⟩] : List Record).map (fun r => r.precio) =
      exRowsC5.map (fun w => parseDecimal (cleanPrice w.precio)) :=
  C5_price_cleaning.2.1 ("P") exRowsC5 [⟨"P", "12", "N", some ⟨123456700, 4⟩⟩] rfl

/-! ## Claim C6 -/

/-- C6: if any row of any supplier file has a product identifier that,
after stringifying and trimming, is not all-digits, ingestion fails
the whole batch with an `InvalidIdentifier` error that names a file
and its offending (all invalid) trimmed SKU cells, and no records are
produced for any file. -/
theorem C6_invalid_identifier_halts (files : List (String × List RawRow))
    (h : ∃ f ∈ files, ∃ row ∈ f.2, ¬ skuValidB (trimS row.sku)) :
    ∃ prov offending,
      ingest files = Except.error (.invalidIdentifier prov offending) ∧
      offending ≠ [] ∧ (∀ s ∈ offending, ¬ skuValidB s) ∧
      ∀ recs, ingest files ≠ Except.ok recs := by
  induction files with
  | nil =>
    obtain ⟨f, hf, _⟩ := h
    exact absurd hf (List.not_mem_nil f)
  | cons f rest ih =>
    obtain ⟨prov, rows⟩ := f
    by_cases hbad : rows.filter (fun r => ! skuValidB (trimS r.sku)) = []
    · have hok : normalizeFile prov rows = Except.ok (rows.map (fun r =>
          ⟨prov, trimS r.sku, trimS r.nombre, parseDecimal (cleanPrice r.precio)⟩)) := by
        simp only [normalizeFile]
        rw [if_neg (by simp [hbad])]
      obtain ⟨f', hf', row, hrow, hrowbad⟩ := h
      have hrest : ∃ f ∈ rest, ∃ row ∈ f.2, ¬ skuValidB (trimS row.sku) := by
        rcases List.mem_cons.mp hf' with he | hm
        · exfalso
          have hrowmem : row ∈ rows.filter (fun r => ! skuValidB (trimS r.sku)) := by
            rw [List.mem_filter]
            refine ⟨?_, by simp [hrowbad]⟩
            have : f'.2 = rows := by rw [he]
            rw [← this]
            exact hrow
          rw [hbad] at hrowmem
          exact List.not_mem_nil _ hrowmem
        · exact ⟨f', hm, row, hrow, hrowbad⟩
      obtain ⟨prov', off, hing', hne, hprop, _⟩ := ih hrest
      have hing : ingest ((prov, rows) :: rest) =
          Except.error (.invalidIdentifier prov' off) := by
        show (match normalizeFile prov rows with
          | Except.error e => Except.error e
          | Except.ok recs =>
            match ingest rest with
            | Except.error e => Except.error e
            | Except.ok more => Except.ok (recs ++ more)) =
          Except.error (.invalidIdentifier prov' off)
        rw [hok, hing']
      refine ⟨prov', off, hing, hne, hprop, ?_⟩
      intro recs
      rw [hing]
      simp
    · have hnf : normalizeFile prov rows = Except.error
          (.invalidIdentifier prov ((rows.filter
            (fun r => ! skuValidB (trimS r.sku))).map (fun r => trimS r.sku))) := by
        simp only [normalizeFile]
        rw [if_pos hbad]
      have hing : ingest ((prov, rows) :: rest) = Except.error
          (.invalidIdentifier prov ((rows.filter
            (fun r => ! skuValidB (trimS r.sku))).map (fun r => trimS r.sku))) := by
        unfold ingest
        rw [hnf]
      refine ⟨prov, _, hing, ?_, ?_, ?_⟩
      · simpa [List.map_eq_nil_iff] using hbad
      · intro s hs
        obtain ⟨r, hrmem, he⟩ := List.mem_map.mp hs
        rw [List.mem_filter] at hrmem
        rw [← he]
        simpa using hrmem.2
      · intro recs
        rw [hing]
        simp

/-- C6 witness: the batch-failure theorem evaluated on the concrete
file set `exFilesC6`, whose second row's SKU is `12a`. -/
theorem C6_invalid_identifier_halts_witness :
    ∃ prov offending,
      ingest exFilesC6 = Except.error (.invalidIdentifier prov offending) ∧
      offending ≠ [] ∧ (∀ s ∈ offending, ¬ skuValidB s) ∧
      ∀ recs, ingest exFilesC6 ≠ Except.ok recs :=
  C6_invalid_identifier_halts exFilesC6
    ⟨("prov1", [⟨"12", "X", "5"⟩, ⟨"12a", "Y", "5"⟩]), by decide⟩

/-! ## Sum-decomposition lemmas -/

theorem sum_ite_key : ∀ (ks : List String) (k0 : String) (c : ℚ), k0 ∈ ks → ks.Nodup →
    (ks.map (fun k => if k0 = k then c else 0)).sum = c
  | [], _, _, hmem, _ => absurd hmem (List.not_mem_nil _)
  | k :: ks, k0, c, hmem, hnodup => by
    rw [List.map_cons, List.sum_cons]
    rcases List.mem_cons.mp hmem with he | hm
    · subst he
      rw [if_pos rfl]
      have hnotin : k0 ∉ ks := (List.nodup_cons.mp hnodup).1
      have hz : (ks.map (fun k => if k0 = k then c else 0)).sum = 0 := by
        apply List.sum_eq_zero
        intro x hx
        obtain ⟨k', hk', he'⟩ := List.mem_map.mp hx
        rw [← he', if_neg (fun hh => hnotin (by rw [hh]; exact hk'))]
      rw [hz, add_zero]
    · have hk : k0 ≠ k := by
        intro hh
        exact (List.nodup_cons.mp hnodup).1 (hh ▸ hm)
      rw [if_neg hk, zero_add]
      exact sum_ite_key ks k0 c hm (List.nodup_cons.mp hnodup).2

theorem sum_fiber (f : MergedRow → ℚ) (key : MergedRow → String) :
    ∀ (l : List MergedRow) (ks : List String), ks.Nodup → (∀ x ∈ l, key x ∈ ks) →
      (ks.map (fun k => ((l.filter (fun x => key x = k)).map f).sum)).sum =
        (l.map f).sum
  | [], ks, _, _ => by simp
  | x :: l, ks, hnodup, hcov => by
    have hx : key x ∈ ks := hcov x (List.mem_cons_self _ _)
    have hcov' : ∀ y ∈ l, key y ∈ ks := fun y hy => hcov y (List.mem_cons_of_mem x hy)
    have ihl := sum_fiber f key l ks hnodup hcov'
    have hsplit : ∀ k, (((x :: l).filter (fun y => key y = k)).map f).sum =
        (if key x = k then f x else 0) + ((l.filter (fun y => key y = k)).map f).sum := by
      intro k
      by_cases hk : key x = k
      · simp [List.filter_cons, hk]
      · simp [List.filter_cons, hk]
    calc (ks.map (fun k => (((x :: l).filter (fun y => key y = k)).map f).sum)).sum
        = (ks.map (fun k => (if key x = k then f x else 0) +
            ((l.filter (fun y => key y = k)).map f).sum)).sum := by
          exact congrArg List.sum (List.map_congr_left (fun k _ => hsplit k))
      _ = (ks.map (fun k => if key x = k then f x else 0)).sum +
          (ks.map (fun k => ((l.filter (fun y => key y = k)).map f).sum)).sum := by
          rw [← List.sum_map_add]
      _ = f x + (l.map f).sum := by
          rw [sum_ite_key ks (key x) (f x) hx hnodup, ihl]
      _ = ((x :: l).map f).sum := by
          rw [List.map_cons, List.sum_cons]

/-! ## Claim C7 -/

/-- C7: for every order state (any quantities whatsoever) the grand
total equals the sum over all suppliers of their subtotals, which in
turn equals the sum of the line totals of all suppliers' orderable
rows (the rows of `gan_total`, each counted under its own supplier). -/
theorem C7_grand_total_consistency (m : List MergedRow) (p : ℕ) (sel : TieSel)
    (cant : Cantidades) :
    totalGlobal m p sel cant =
      ((proveedoresOrden m p sel).map (fun prov => subtotal m p sel cant prov)).sum ∧
    totalGlobal m p sel cant =
      ((ganTotal m p sel).map
        (fun r => (lineTotal r.precio (qtyOf cant r.proveedor r.sku)).toQ)).sum := by
  refine ⟨rfl, ?_⟩
  have hsub : ∀ prov, subtotal m p sel cant prov =
      (((ganTotal m p sel).filter (fun r => r.proveedor = prov)).map
        (fun r => (lineTotal r.precio (qtyOf cant r.proveedor r.sku)).toQ)).sum := by
    intro prov
    unfold subtotal orderLines
    rw [List.map_map]
    have hperm : (baseFor m p sel prov).Perm
        ((ganTotal m p sel).filter (fun r => r.proveedor = prov)) :=
      List.perm_insertionSort _ _
    have hsum := (hperm.map
      (fun r => (lineTotal r.precio (qtyOf cant prov r.sku)).toQ)).sum_eq
    have hcongr : ((ganTotal m p sel).filter (fun r => r.proveedor = prov)).map
        (fun r => (lineTotal r.precio (qtyOf cant prov r.sku)).toQ) =
        ((ganTotal m p sel).filter (fun r => r.proveedor = prov)).map
        (fun r => (lineTotal r.precio (qtyOf cant r.proveedor r.sku)).toQ) := by
      apply List.map_congr_left
      intro r hr
      rw [List.mem_filter] at hr
      have : r.proveedor = prov := by simpa using hr.2
      rw [this]
    rw [← hcongr]
    exact hsum
  unfold totalGlobal
  have hnodup : (proveedoresOrden m p sel).Nodup := by
    unfold proveedoresOrden
    exact (List.perm_insertionSort strLe _).nodup_iff.mpr (List.nodup_dedup _)
  have hcov : ∀ r ∈ ganTotal m p sel, r.proveedor ∈ proveedoresOrden m p sel := by
    intro r hr
    apply mem_sortStr.mpr
    rw [List.mem_dedup]
    exact List.mem_map.mpr ⟨r, hr, rfl⟩
  rw [List.map_congr_left (fun prov _ => hsub prov)]
  exact sum_fiber _ (fun r => r.proveedor) (ganTotal m p sel)
    (proveedoresOrden m p sel) hnodup hcov

/-! ## Claim C9 -/

theorem tieRowsUnsorted_isSome {m : List MergedRow} {p : ℕ} {r : MergedRow}
    (h : r ∈ tieRowsUnsorted m p) : r.precio.isSome := by
  unfold tieRowsUnsorted at h
  rw [List.mem_filter] at h
  exact (mem_priced.mp h.1).2

theorem ganTotal_isSome {m : List MergedRow} {p : ℕ} {sel : TieSel} {r : MergedRow}
    (h : r ∈ ganTotal m p sel) : r.precio.isSome := by
  unfold ganTotal at h
  rcases List.mem_append.mp h with hg | he
  · have hmem := mem_sort.mp hg
    rw [List.mem_filter] at hmem
    exact tieRowsUnsorted_isSome (mem_empatesDf_iff.mp hmem.1)
  · unfold elegidas at he
    obtain ⟨e, _, hpick⟩ := List.mem_filterMap.mp he
    have hrm := head?_mem hpick
    rw [List.mem_filter] at hrm
    have h2 := mem_sort.mp hrm.1
    rw [List.mem_filter] at h2
    exact tieRowsUnsorted_isSome (mem_empatesDf_iff.mp h2.1)

/-- C9: every orderable line's total equals its unit price multiplied
by the stored quantity; each orderable row has a present price, and a
quantity of 0 yields a total of 0 (no error path exists). -/
theorem C9_line_total (m : List MergedRow) (p : ℕ) (sel : TieSel) (cant : Cantidades)
    (prov : String) (line : OrderLine) (h : line ∈ orderLines m p sel cant prov) :
    ∃ d, line.precio = some d ∧
      line.total.toQ = d.toQ * (line.cantidad : ℚ) ∧
      (line.cantidad = 0 → line.total.toQ = 0) := by
  unfold orderLines at h
  obtain ⟨r, hr, he⟩ := List.mem_map.mp h
  have hrg : r ∈ ganTotal m p sel := by
    have hmem := mem_sort.mp hr
    rw [List.mem_filter] at hmem
    exact hmem.1
  obtain ⟨d, hd⟩ := Option.isSome_iff_exists.mp (ganTotal_isSome hrg)
  subst he
  refine ⟨d, hd, ?_, ?_⟩
  · show (lineTotal r.precio (qtyOf cant prov r.sku)).toQ =
      d.toQ * ((qtyOf cant prov r.sku : ℕ) : ℚ)
    rw [hd]
    unfold lineTotal Dec.toQ
    simp only [Option.map_some', Option.getD_some]
    push_cast
    ring
  · intro h0
    show (lineTotal r.precio (qtyOf cant prov r.sku)).toQ = 0
    have h0' : qtyOf cant prov r.sku = 0 := h0
    rw [hd, h0']
    unfold lineTotal Dec.toQ
    simp

/-- C9 witness: the line-total theorem evaluated at the concrete first
line of supplier `A` under `exM9` and `exCant9`. -/
theorem C9_line_total_witness :
    ∃ d, exLine9.precio = some d ∧
      exLine9.total.toQ = d.toQ * (exLine9.cantidad : ℚ) ∧
      (exLine9.cantidad = 0 → exLine9.total.toQ = 0) :=
  C9_line_total exM9 2 [] exCant9 ("A") exLine9 (by decide)

end Farmacia
